import Mathlib

/-!
Verification of the multi-strategy RAG orchestration layer
(`src/models/fusion_rrf.py`, `src/models/decomposition_ltm.py`,
`src/call_methods.py`, `src/main.py`).

Modelling conventions:
* Python floats are modelled by `ℚ` (the RRF scores only ever combine
  reciprocals of positive integers, so the algorithmic content is exact
  rational arithmetic).
* Documents are an arbitrary type `α`; the canonical JSON serialization
  `langchain.load.dumps` is an abstract function `dumps : α → String`, and
  `loads : String → α` is its abstract inverse, exactly as the code uses
  them (documents are compared only through their `dumps` image).
* A Python `dict` (insertion-ordered, as guaranteed since Python 3.7) is
  modelled by an association list: a new key is appended at the end, an
  update to an existing key keeps its position.
* `raise ValueError(msg)` is modelled by `Except.error msg`; the
  `except Exception` wrappers that re-raise with a prefixed message are
  modelled by prefixing the message string.
* `input()` is modelled by an explicit `stdin` argument; LanguageModel and
  Retriever collaborators are oracle functions passed as arguments.
-/

namespace RagCore

/-- Python dict update from `fusion_rrf.py` lines 114-121: if `key` is
absent it is appended with initial score `0` and then incremented by `inc`
(net: appended with `inc`); if present, its score is incremented in place,
keeping its position (Python dicts preserve insertion order). -/
def updateScore : List (String × ℚ) → String → ℚ → List (String × ℚ)
  | [], key, inc => [(key, inc)]
  | (k0, v) :: rest, key, inc =>
      if k0 = key then (k0, v + inc) :: rest
      else (k0, v) :: updateScore rest key inc

/-- The inner loop of `reciprocal_rank_fusion` (`for rank, doc in
enumerate(docs)`): each document at 0-based position `rank` adds
`1 / (rank + k)` to the accumulated score of its serialization key. -/
def processDocs (dumps : α → String) (k : ℤ) : List α → ℕ → List (String × ℚ) → List (String × ℚ)
  | [], _, m => m
  | d :: ds, rank, m =>
      processDocs dumps k ds (rank + 1) (updateScore m (dumps d) (1 / ((rank : ℚ) + (k : ℚ))))

/-- The outer loop of `reciprocal_rank_fusion` (`for docs in results`),
starting from an accumulator dict `m`. -/
def processAll (dumps : α → String) (k : ℤ) (m : List (String × ℚ)) (results : List (List α)) : List (String × ℚ) :=
  results.foldl (fun m docs => processDocs dumps k docs 0 m) m

/-- The `fused_scores` dict built by `reciprocal_rank_fusion`
(`fusion_rrf.py` lines 103-121), starting from the empty dict. -/
def fused_scores (dumps : α → String) (k : ℤ) (results : List (List α)) : List (String × ℚ) :=
  processAll dumps k [] results

/-- The comparison used by `sorted(fused_scores.items(), key=lambda x: x[1],
reverse=True)`: descending by score.  Python `sorted` is stable, which
`List.mergeSort` models. -/
def pairLE (p q : String × ℚ) : Bool := decide (q.2 ≤ p.2)

/-- `reranked_results` before deserialization: the `fused_scores` items
sorted by score descending, ties kept in dict (= first-seen) order
(`fusion_rrf.py` lines 124-129). -/
def reranked_results (dumps : α → String) (k : ℤ) (results : List (List α)) : List (String × ℚ) :=
  (fused_scores dumps k results).mergeSort pairLE

/-- `FusionRetrieval.reciprocal_rank_fusion` (`fusion_rrf.py` lines 75-132):
raises `ValueError("Results list cannot be empty")` on an empty outer list,
otherwise returns the sorted `(loads(doc), score)` pairs. -/
def reciprocal_rank_fusion (dumps : α → String) (loads : String → α)
    (results : List (List α)) (k : ℤ) : Except String (List (α × ℚ)) :=
  match results with
  | [] => .error "Results list cannot be empty"
  | _ :: _ => .ok ((reranked_results dumps k results).map (fun p => (loads p.1, p.2)))

/-- Python dict lookup in the association-list model (score of `key`,
`0` if absent). -/
def scoreOf : List (String × ℚ) → String → ℚ
  | [], _ => 0
  | (k0, v) :: rest, key => if k0 = key then v else scoreOf rest key

/-- Spec-side score of one ranked list for a document key: the sum, over
every 0-based position `rank` (counted from `n`) at which a document with
serialization `key` occurs, of `1 / (rank + k)`. -/
def occScoreFrom (dumps : α → String) (k : ℤ) (key : String) (n : ℕ) (docs : List α) : ℚ :=
  (((docs.enumFrom n).filter (fun p => decide (dumps p.2 = key))).map
    (fun p => 1 / ((p.1 : ℚ) + (k : ℚ)))).sum

/-- Spec-side score of one ranked list (0-based ranks). -/
def occScore (dumps : α → String) (k : ℤ) (key : String) (docs : List α) : ℚ :=
  occScoreFrom dumps k key 0 docs

/-- Spec-side RRF score of a document key: the sum over all ranked lists of
the per-occurrence contributions `1 / (rank + k)`; lists not containing the
document contribute nothing (their filtered sum is `0`). -/
def specScore (dumps : α → String) (k : ℤ) (key : String) (results : List (List α)) : ℚ :=
  (results.map (occScore dumps k key)).sum

/-- First-seen order: the sequence of keys in scan order with later
duplicates and already-seen keys dropped. -/
def newKeys (seen : List String) : List String → List String
  | [] => []
  | x :: xs => if x ∈ seen then newKeys seen xs else x :: newKeys (x :: seen) xs

/-- Insertion of an element at a given position (the list shape used to
state rank monotonicity); positions past the end leave the list unchanged. -/
def insertAt (d : α) : ℕ → List α → List α
  | 0, l => d :: l
  | _ + 1, [] => []
  | n + 1, b :: t => b :: insertAt d n t

/-- `FusionRetrieval.retrieve_documents` (`fusion_rrf.py` lines 134-169):
rejects an empty question, expands it into queries via the LanguageModel
(`generate_queries` oracle), retrieves one ranked list per query, fuses
them, and raises (wrapped as
`"Failed to retrieve documents: ..."`) when fusion itself fails or when
the fused list is empty. -/
def retrieve_documents (dumps : α → String) (loads : String → α)
    (generate_queries : String → List String) (retriever : String → List α)
    (k : ℤ) (question : String) : Except String (List (α × ℚ)) :=
  if question = "" then .error "Question cannot be empty"
  else
    match reciprocal_rank_fusion dumps loads ((generate_queries question).map retriever) k with
    | .error e => .error ("Failed to retrieve documents: " ++ e)
    | .ok docs =>
        match docs with
        | [] => .error "Failed to retrieve documents: No documents retrieved for the given question."
        | _ :: _ => .ok docs

/-- `FusionRetrieval.answer_question` (`fusion_rrf.py` lines 171-206): the
final-synthesis LanguageModel call, invoked with the newline-joined page
contents of the fused documents and the question. -/
def answer_question (llm : String → String → String) (content : α → String)
    (question : String) (docs : List (α × ℚ)) : Except String String :=
  match docs with
  | [] => .error "No documents retrieved to generate an answer"
  | _ :: _ =>
      .ok (llm (String.intercalate "\n" (docs.map (fun p => content p.1))) question)

/-- `FusionRetrieval.run` (`fusion_rrf.py` lines 208-229): reads the
question from stdin, retrieves, then synthesizes; a `ValueError` is caught
and printed as `"Error: ..."`.  The second component instruments whether
the final-synthesis LanguageModel call (`answer_question`'s chain) was
reached. -/
def FusionRetrieval.run (dumps : α → String) (loads : String → α)
    (generate_queries : String → List String) (retriever : String → List α)
    (k : ℤ) (llm : String → String → String) (content : α → String)
    (stdin : String) : String × Bool :=
  let question := stdin
  match retrieve_documents dumps loads generate_queries retriever k question with
  | .error e => ("Error: " ++ e, false)
  | .ok docs =>
      match answer_question llm content question docs with
      | .error e => ("Error: " ++ e, false)
      | .ok ans => ("Answer: " ++ ans, true)

/-- The input bundle handed to the per-sub-question prompt template of
`DecompositionRetrieval` (`decomposition_ltm.py` lines 58-73).  The
template has three slots; the loop at lines 137-140 fills only `context`
and `question`, so `q_a_pairs` stays `none`. -/
structure DecompPromptInput (α : Type) where
  context : List α
  question : String
  q_a_pairs : Option String
deriving DecidableEq

/-- The body of the `for sub_question in sub_questions` loop of
`DecompositionRetrieval.retrieve_and_rag` (`decomposition_ltm.py` lines
133-141), instrumented to also record the prompt inputs handed to the
LanguageModel.  The accumulator is `(rag_results, prompts used so far)`. -/
def ragLoop (retriever : String → List α) (llm : DecompPromptInput α → String)
    (sub_questions : List String) : List String × List (DecompPromptInput α) :=
  sub_questions.foldl
    (fun acc sq =>
      let p : DecompPromptInput α := ⟨retriever sq, sq, none⟩
      (acc.1 ++ [llm p], acc.2 ++ [p]))
    ([], [])

/-- `DecompositionRetrieval.retrieve_and_rag` (`decomposition_ltm.py` lines
96-144): rejects an empty question, generates sub-questions, answers each
with only the retrieved documents and the sub-question as prompt input,
and returns `(rag_results, sub_questions)`. -/
def retrieve_and_rag (retriever : String → List α) (llm : DecompPromptInput α → String)
    (generate_queries_decomposition : String → List String)
    (question : String) : Except String (List String × List String) :=
  if question = "" then .error "Question cannot be empty"
  else
    let sub_questions := generate_queries_decomposition question
    .ok ((ragLoop retriever llm sub_questions).1, sub_questions)

/-- One block of `DecompositionRetrieval.format_qa_pairs`: the string
appended for the `i`-th (1-indexed) question/answer pair. -/
def qaBlock (i : ℕ) (q a : String) : String :=
  "Question " ++ toString i ++ ": " ++ q ++ "\nAnswer " ++ toString i ++ ": " ++ a ++ "\n\n"

/-- The accumulation loop of `format_qa_pairs` (`decomposition_ltm.py`
lines 168-173): `for i, (question, answer) in enumerate(zip(questions,
answers), start=1): formatted_string += ...`. -/
def formatQAAux (i : ℕ) (pairs : List (String × String)) (acc : String) : String :=
  match pairs with
  | [] => acc
  | (q, a) :: rest => formatQAAux (i + 1) rest (acc ++ qaBlock i q a)

/-- Python `str.strip()`: drop leading and trailing whitespace characters
(modelled structurally on the character list so that it evaluates). -/
def pyStrip (s : String) : String :=
  ⟨((s.data.dropWhile Char.isWhitespace).reverse.dropWhile Char.isWhitespace).reverse⟩

/-- `DecompositionRetrieval.format_qa_pairs` (`decomposition_ltm.py` lines
146-176): builds the 1-indexed blocks over `zip(questions, answers)` and
strips surrounding whitespace (Python `str.strip`). -/
def format_qa_pairs (questions answers : List String) : String :=
  pyStrip (formatQAAux 1 (questions.zip answers) "")

/-- The outcome of `RAGMethodCaller.call_method` (`call_methods.py` lines
37-73): which pipeline's `run()` is invoked, or the printed
invalid-method message. -/
inductive DispatchResult where
  | multiQueryRun
  | fusionRun
  | decompositionRun
  | invalidMessage
deriving DecidableEq

/-- Python `str.lower()`: lowercase every character (modelled structurally
on the character list so that it evaluates). -/
def pyLower (s : String) : String := ⟨s.data.map Char.toLower⟩

/-- `RAGMethodCaller.call_method` (`call_methods.py` lines 37-73): the
lowercased method name is compared against the three literal strategy
names; anything else prints
`"Invalid method name provided. ..."` and invokes no pipeline. -/
def call_method (method_name : String) : DispatchResult :=
  if pyLower method_name = "multi_query" then .multiQueryRun
  else if pyLower method_name = "fusion" then .fusionRun
  else if pyLower method_name = "decomposition" then .decompositionRun
  else .invalidMessage

/-- Spec-side case-insensitive string match: equal after lowercasing. -/
def ciEq (s t : String) : Bool := pyLower s == pyLower t

/-- A call of the bound method `RAGMethodCaller.call_method` with an
explicit positional argument list.  The Python `def call_method(self,
method_name)` accepts exactly one positional argument beside `self`; any
other arity raises `TypeError` before any dispatch happens. -/
def call_method_with_args (args : List String) : Except String DispatchResult :=
  match args with
  | [name] => .ok (call_method name)
  | _ => .error "TypeError: call_method() takes 2 positional arguments but 3 were given"

/-- The dispatch step of `main` (`main.py` lines 49-55): after reading
`query` from stdin, `main` calls
`rag_method_caller.call_method(method_name, query)` — two positional
arguments. -/
def main_dispatch (method_name query : String) : Except String DispatchResult :=
  call_method_with_args [method_name, query]

/-! ### Helper lemmas about the fused-scores dictionary -/

theorem scoreOf_updateScore (m : List (String × ℚ)) (key key' : String) (inc : ℚ) :
    scoreOf (updateScore m key inc) key' =
      scoreOf m key' + (if key' = key then inc else 0) := by
  induction m with
  | nil =>
      simp only [updateScore, scoreOf]
      rcases eq_or_ne key' key with h | h
      · subst h; simp
      · rw [if_neg (Ne.symm h), if_neg h, zero_add]
  | cons p rest ih =>
      obtain ⟨k0, v⟩ := p
      simp only [updateScore]
      rcases eq_or_ne k0 key with h1 | h1
      · subst h1
        simp only [if_pos rfl, scoreOf]
        rcases eq_or_ne k0 key' with h2 | h2
        · subst h2; simp
        · rw [if_neg h2, if_neg h2, if_neg (fun h => h2 h.symm), add_zero]
      · rw [if_neg h1]
        simp only [scoreOf]
        rcases eq_or_ne k0 key' with h2 | h2
        · rw [if_pos h2, if_pos h2, if_neg (fun h => h1 (h2.trans h)), add_zero]
        · rw [if_neg h2, if_neg h2, ih]

theorem keys_updateScore_mem (m : List (String × ℚ)) (key : String) (inc : ℚ)
    (h : key ∈ m.map Prod.fst) :
    (updateScore m key inc).map Prod.fst = m.map Prod.fst := by
  induction m with
  | nil => simp at h
  | cons p rest ih =>
      obtain ⟨k0, v⟩ := p
      rcases eq_or_ne k0 key with h1 | h1
      · simp [updateScore, h1]
      · have hr : key ∈ rest.map Prod.fst := by
          rw [List.map_cons] at h
          rcases List.mem_cons.mp h with h2 | h2
          · exact absurd h2.symm h1
          · exact h2
        simp [updateScore, h1, ih hr]

theorem keys_updateScore_not_mem (m : List (String × ℚ)) (key : String) (inc : ℚ)
    (h : key ∉ m.map Prod.fst) :
    (updateScore m key inc).map Prod.fst = m.map Prod.fst ++ [key] := by
  induction m with
  | nil => simp [updateScore]
  | cons p rest ih =>
      obtain ⟨k0, v⟩ := p
      have h1 : k0 ≠ key := by
        intro he
        exact h (by simp [he])
      have hr : key ∉ rest.map Prod.fst := fun hh => h (by simp [hh])
      simp [updateScore, h1, ih hr]

theorem mem_keys_updateScore (m : List (String × ℚ)) (key key' : String) (inc : ℚ) :
    key' ∈ (updateScore m key inc).map Prod.fst ↔ key' ∈ m.map Prod.fst ∨ key' = key := by
  by_cases h : key ∈ m.map Prod.fst
  · rw [keys_updateScore_mem m key inc h]
    constructor
    · exact Or.inl
    · rintro (hh | rfl)
      · exact hh
      · exact h
  · rw [keys_updateScore_not_mem m key inc h]
    simp

theorem nodup_keys_updateScore (m : List (String × ℚ)) (key : String) (inc : ℚ)
    (h : (m.map Prod.fst).Nodup) :
    ((updateScore m key inc).map Prod.fst).Nodup := by
  by_cases hm : key ∈ m.map Prod.fst
  · rwa [keys_updateScore_mem m key inc hm]
  · rw [keys_updateScore_not_mem m key inc hm]
    rw [List.nodup_append]
    refine ⟨h, List.nodup_singleton key, ?_⟩
    intro x hx hsing
    rw [List.mem_singleton] at hsing
    exact hm (hsing ▸ hx)

/-! ### Helper lemmas about first-seen key order -/

theorem newKeys_congr : ∀ (xs seen seen' : List String),
    (∀ x, x ∈ seen ↔ x ∈ seen') → newKeys seen xs = newKeys seen' xs
  | [], _, _, _ => rfl
  | x :: xs, seen, seen', h => by
      by_cases hx : x ∈ seen
      · rw [newKeys, if_pos hx, newKeys, if_pos ((h x).mp hx)]
        exact newKeys_congr xs seen seen' h
      · rw [newKeys, if_neg hx, newKeys, if_neg (fun hh => hx ((h x).mpr hh))]
        rw [newKeys_congr xs (x :: seen) (x :: seen')
          (fun y => by rw [List.mem_cons, List.mem_cons]; exact or_congr Iff.rfl (h y))]

theorem mem_newKeys : ∀ (xs seen : List String) (x : String),
    x ∈ newKeys seen xs ↔ x ∈ xs ∧ x ∉ seen
  | [], seen, x => by simp [newKeys]
  | y :: xs, seen, x => by
      by_cases hy : y ∈ seen
      · rw [newKeys, if_pos hy, mem_newKeys xs seen x]
        constructor
        · rintro ⟨h1, h2⟩
          exact ⟨List.mem_cons_of_mem _ h1, h2⟩
        · rintro ⟨h1, h2⟩
          rcases List.mem_cons.mp h1 with rfl | h1
          · exact absurd hy h2
          · exact ⟨h1, h2⟩
      · rw [newKeys, if_neg hy, List.mem_cons, mem_newKeys xs (y :: seen) x]
        constructor
        · rintro (rfl | ⟨h1, h2⟩)
          · exact ⟨List.mem_cons_self _ _, hy⟩
          · exact ⟨List.mem_cons_of_mem _ h1, fun hh => h2 (List.mem_cons_of_mem _ hh)⟩
        · rintro ⟨h1, h2⟩
          by_cases hxy : x = y
          · exact Or.inl hxy
          · rcases List.mem_cons.mp h1 with h | h
            · exact absurd h hxy
            · refine Or.inr ⟨h, fun hh => ?_⟩
              rcases List.mem_cons.mp hh with h3 | h3
              · exact hxy h3
              · exact h2 h3

theorem nodup_newKeys : ∀ (xs seen : List String), (newKeys seen xs).Nodup
  | [], _ => by simp [newKeys]
  | y :: xs, seen => by
      by_cases hy : y ∈ seen
      · rw [newKeys, if_pos hy]
        exact nodup_newKeys xs seen
      · rw [newKeys, if_neg hy]
        refine List.Nodup.cons ?_ (nodup_newKeys xs (y :: seen))
        intro hmem
        exact ((mem_newKeys xs (y :: seen) y).mp hmem).2 (List.mem_cons_self _ _)

theorem newKeys_append : ∀ (xs ys seen : List String),
    newKeys seen (xs ++ ys) = newKeys seen xs ++ newKeys (xs ++ seen) ys
  | [], ys, seen => by
      rw [List.nil_append, newKeys, List.nil_append, List.nil_append]
  | x :: xs, ys, seen => by
      by_cases hx : x ∈ seen
      · rw [List.cons_append, newKeys, if_pos hx, newKeys, if_pos hx,
          newKeys_append xs ys seen]
        congr 1
        refine newKeys_congr ys (xs ++ seen) (x :: xs ++ seen) (fun y => ?_)
        simp only [List.cons_append, List.mem_append, List.mem_cons]
        constructor
        · rintro (h | h)
          · exact Or.inr (Or.inl h)
          · exact Or.inr (Or.inr h)
        · rintro (rfl | h | h)
          · exact Or.inr hx
          · exact Or.inl h
          · exact Or.inr h
      · rw [List.cons_append, newKeys, if_neg hx, newKeys, if_neg hx,
          newKeys_append xs ys (x :: seen), List.cons_append]
        congr 1
        congr 1
        refine newKeys_congr ys (xs ++ x :: seen) (x :: xs ++ seen) (fun y => ?_)
        simp only [List.cons_append, List.mem_append, List.mem_cons]
        tauto

/-! ### Relating the imperative dict computation to the RRF score formula -/

theorem occScoreFrom_nil (dumps : α → String) (k : ℤ) (key : String) (n : ℕ) :
    occScoreFrom dumps k key n [] = 0 := rfl

theorem occScoreFrom_cons (dumps : α → String) (k : ℤ) (key : String) (n : ℕ)
    (d : α) (ds : List α) :
    occScoreFrom dumps k key n (d :: ds) =
      (if dumps d = key then 1 / ((n : ℚ) + (k : ℚ)) else 0)
        + occScoreFrom dumps k key (n + 1) ds := by
  simp only [occScoreFrom, List.enumFrom_cons, List.filter_cons]
  by_cases h : dumps d = key
  · simp [h]
  · simp [h]

theorem scoreOf_processDocs (dumps : α → String) (k : ℤ) :
    ∀ (docs : List α) (rank : ℕ) (m : List (String × ℚ)) (key : String),
      scoreOf (processDocs dumps k docs rank m) key =
        scoreOf m key + occScoreFrom dumps k key rank docs
  | [], rank, m, key => by
      simp [processDocs, occScoreFrom_nil]
  | d :: ds, rank, m, key => by
      rw [processDocs, scoreOf_processDocs dumps k ds (rank + 1) _ key,
        scoreOf_updateScore, occScoreFrom_cons]
      have hite : (if key = dumps d then 1 / ((rank : ℚ) + (k : ℚ)) else 0) =
          (if dumps d = key then 1 / ((rank : ℚ) + (k : ℚ)) else 0) := by
        rcases eq_or_ne (dumps d) key with h | h
        · rw [if_pos h, if_pos h.symm]
        · rw [if_neg h, if_neg (fun hh => h hh.symm)]
      rw [hite]
      ring

theorem keys_processDocs (dumps : α → String) (k : ℤ) :
    ∀ (docs : List α) (rank : ℕ) (m : List (String × ℚ)),
      (processDocs dumps k docs rank m).map Prod.fst =
        m.map Prod.fst ++ newKeys (m.map Prod.fst) (docs.map dumps)
  | [], rank, m => by simp [processDocs, newKeys]
  | d :: ds, rank, m => by
      rw [processDocs, keys_processDocs dumps k ds (rank + 1) _]
      by_cases h : dumps d ∈ m.map Prod.fst
      · rw [keys_updateScore_mem _ _ _ h, List.map_cons, newKeys, if_pos h]
      · rw [keys_updateScore_not_mem _ _ _ h, List.map_cons, newKeys, if_neg h,
          List.append_assoc, List.singleton_append]
        congr 2
        refine newKeys_congr (ds.map dumps) (m.map Prod.fst ++ [dumps d])
          (dumps d :: m.map Prod.fst) (fun y => ?_)
        simp only [List.mem_append, List.mem_cons, List.mem_singleton]
        tauto

theorem scoreOf_processAll (dumps : α → String) (k : ℤ) :
    ∀ (results : List (List α)) (m : List (String × ℚ)) (key : String),
      scoreOf (processAll dumps k m results) key =
        scoreOf m key + specScore dumps k key results
  | [], m, key => by simp [processAll, specScore]
  | docs :: rs, m, key => by
      have hstep : processAll dumps k m (docs :: rs) =
          processAll dumps k (processDocs dumps k docs 0 m) rs := rfl
      rw [hstep, scoreOf_processAll dumps k rs _ key, scoreOf_processDocs]
      simp only [specScore, List.map_cons, List.sum_cons, occScore]
      ring

theorem keys_processAll (dumps : α → String) (k : ℤ) :
    ∀ (results : List (List α)) (m : List (String × ℚ)),
      (processAll dumps k m results).map Prod.fst =
        m.map Prod.fst ++ newKeys (m.map Prod.fst) (results.flatten.map dumps)
  | [], m => by simp [processAll, newKeys]
  | docs :: rs, m => by
      have hstep : processAll dumps k m (docs :: rs) =
          processAll dumps k (processDocs dumps k docs 0 m) rs := rfl
      rw [hstep, keys_processAll dumps k rs _, keys_processDocs,
        List.flatten_cons, List.map_append, newKeys_append, List.append_assoc]
      congr 2
      refine newKeys_congr (rs.flatten.map dumps)
        (m.map Prod.fst ++ newKeys (m.map Prod.fst) (docs.map dumps))
        (docs.map dumps ++ m.map Prod.fst) (fun y => ?_)
      simp only [List.mem_append, mem_newKeys]
      tauto

theorem scoreOf_fused_scores (dumps : α → String) (k : ℤ)
    (results : List (List α)) (key : String) :
    scoreOf (fused_scores dumps k results) key = specScore dumps k key results := by
  have h := scoreOf_processAll dumps k results [] key
  simpa [fused_scores, scoreOf] using h

theorem keys_fused_scores (dumps : α → String) (k : ℤ) (results : List (List α)) :
    (fused_scores dumps k results).map Prod.fst =
      newKeys [] (results.flatten.map dumps) := by
  have h := keys_processAll dumps k results []
  simpa [fused_scores] using h

theorem nodup_keys_fused_scores (dumps : α → String) (k : ℤ) (results : List (List α)) :
    ((fused_scores dumps k results).map Prod.fst).Nodup := by
  rw [keys_fused_scores]
  exact nodup_newKeys _ _

theorem mem_keys_fused_scores (dumps : α → String) (k : ℤ) (results : List (List α))
    (key : String) :
    key ∈ (fused_scores dumps k results).map Prod.fst ↔
      ∃ docs, docs ∈ results ∧ ∃ d, d ∈ docs ∧ dumps d = key := by
  rw [keys_fused_scores, mem_newKeys]
  simp only [List.not_mem_nil, not_false_iff, and_true, List.mem_map, List.mem_flatten]
  constructor
  · rintro ⟨d, ⟨docs, hdocs, hd⟩, hkey⟩
    exact ⟨docs, hdocs, d, hd, hkey⟩
  · rintro ⟨docs, hdocs, d, hd, hkey⟩
    exact ⟨d, ⟨docs, hdocs, hd⟩, hkey⟩

theorem snd_eq_scoreOf_of_nodup :
    ∀ (m : List (String × ℚ)), ((m.map Prod.fst).Nodup) →
      ∀ p ∈ m, p.2 = scoreOf m p.1
  | [], _, p, hp => by simp at hp
  | (k0, v) :: rest, h, p, hp => by
      rw [List.map_cons, List.nodup_cons] at h
      rcases List.mem_cons.mp hp with rfl | hp
      · simp [scoreOf]
      · have hk : k0 ≠ p.1 := by
          intro he
          refine h.1 ?_
          rw [he]
          exact List.mem_map.mpr ⟨p, hp, rfl⟩
        simp only [scoreOf, if_neg hk]
        exact snd_eq_scoreOf_of_nodup rest h.2 p hp

/-! ### The sorting comparison -/

theorem pairLE_trans (a b c : String × ℚ) (h1 : pairLE a b) (h2 : pairLE b c) :
    pairLE a c := by
  simp only [pairLE, decide_eq_true_eq] at h1 h2 ⊢
  exact le_trans h2 h1

theorem pairLE_total (a b : String × ℚ) : pairLE a b || pairLE b a := by
  simp only [pairLE, Bool.or_eq_true, decide_eq_true_eq]
  exact le_total b.2 a.2

theorem rrf_of_ne_nil (dumps : α → String) (loads : String → α)
    (results : List (List α)) (k : ℤ) (h : results ≠ []) :
    reciprocal_rank_fusion dumps loads results k =
      .ok ((reranked_results dumps k results).map (fun p => (loads p.1, p.2))) := by
  cases results with
  | nil => exact absurd rfl h
  | cons docs rs => rfl

theorem processAll_all_empty (dumps : α → String) (k : ℤ) :
    ∀ (results : List (List α)) (m : List (String × ℚ)),
      (∀ l ∈ results, l = []) → processAll dumps k m results = m
  | [], _, _ => rfl
  | docs :: rs, m, h => by
      have hd : docs = [] := h docs (List.mem_cons_self _ _)
      subst hd
      have hstep : processAll dumps k m ([] :: rs) = processAll dumps k m rs := rfl
      rw [hstep]
      exact processAll_all_empty dumps k rs m (fun l hl => h l (List.mem_cons_of_mem _ hl))

/-! ### Monotonicity helpers -/

theorem rankDen_pos (n : ℕ) (k : ℤ) (hk : 0 < k) : 0 < (n : ℚ) + (k : ℚ) := by
  have hk' : (0 : ℚ) < (k : ℚ) := by exact_mod_cast hk
  have hn : (0 : ℚ) ≤ (n : ℚ) := Nat.cast_nonneg n
  linarith

theorem occScoreFrom_nonneg (dumps : α → String) (k : ℤ) (key : String) (hk : 0 < k) :
    ∀ (n : ℕ) (docs : List α), 0 ≤ occScoreFrom dumps k key n docs
  | _, [] => le_of_eq rfl
  | n, d :: ds => by
      rw [occScoreFrom_cons]
      have h1 : 0 ≤ (if dumps d = key then 1 / ((n : ℚ) + (k : ℚ)) else 0) := by
        split
        · exact le_of_lt (one_div_pos.mpr (rankDen_pos n k hk))
        · exact le_refl 0
      have h2 := occScoreFrom_nonneg dumps k key hk (n + 1) ds
      linarith

theorem occScoreFrom_insertAt_succ_le (dumps : α → String) (k : ℤ) (d : α) (hk : 0 < k) :
    ∀ (bs : List α) (p n : ℕ), p + 1 ≤ bs.length →
      occScoreFrom dumps k (dumps d) n (insertAt d (p + 1) bs) ≤
        occScoreFrom dumps k (dumps d) n (insertAt d p bs)
  | [], p, n, h => by simp at h
  | b :: t, 0, n, h => by
      rw [show insertAt d 1 (b :: t) = b :: d :: t from rfl,
        show insertAt d 0 (b :: t) = d :: b :: t from rfl,
        occScoreFrom_cons, occScoreFrom_cons, occScoreFrom_cons, occScoreFrom_cons,
        if_pos rfl, if_pos rfl]
      by_cases hb : dumps b = dumps d
      · rw [if_pos hb, if_pos hb]
      · rw [if_neg hb, if_neg hb]
        have hle : 1 / (((n + 1 : ℕ) : ℚ) + (k : ℚ)) ≤ 1 / ((n : ℚ) + (k : ℚ)) := by
          refine one_div_le_one_div_of_le (rankDen_pos n k hk) ?_
          push_cast
          linarith
        have h2 := occScoreFrom_nonneg dumps k (dumps d) hk (n + 1 + 1) t
        push_cast at hle ⊢
        linarith
  | b :: t, p + 1, n, h => by
      rw [show insertAt d (p + 1 + 1) (b :: t) = b :: insertAt d (p + 1) t from rfl,
        show insertAt d (p + 1) (b :: t) = b :: insertAt d p t from rfl,
        occScoreFrom_cons, occScoreFrom_cons]
      have hrec := occScoreFrom_insertAt_succ_le dumps k d hk t p (n + 1)
        (by simpa using h)
      exact add_le_add_left hrec _

theorem occScoreFrom_insertAt_le (dumps : α → String) (k : ℤ) (d : α) (hk : 0 < k)
    (bs : List α) (q p : ℕ) (hqp : q ≤ p) (hp : p ≤ bs.length) (n : ℕ) :
    occScoreFrom dumps k (dumps d) n (insertAt d p bs) ≤
      occScoreFrom dumps k (dumps d) n (insertAt d q bs) := by
  revert hp
  induction p, hqp using Nat.le_induction with
  | base => intro _; exact le_refl _
  | succ p hqp ih =>
      intro hp
      exact le_trans (occScoreFrom_insertAt_succ_le dumps k d hk bs p n hp)
        (ih (Nat.le_of_succ_le hp))

theorem specScore_append (dumps : α → String) (k : ℤ) (key : String)
    (rs₁ rs₂ : List (List α)) :
    specScore dumps k key (rs₁ ++ rs₂) =
      specScore dumps k key rs₁ + specScore dumps k key rs₂ := by
  simp [specScore, List.map_append, List.sum_append]

theorem specScore_middle (dumps : α → String) (k : ℤ) (key : String)
    (pre suf : List (List α)) (x : List α) :
    specScore dumps k key (pre ++ x :: suf) =
      specScore dumps k key pre + occScore dumps k key x + specScore dumps k key suf := by
  rw [← List.singleton_append, ← List.append_assoc, specScore_append, specScore_append]
  simp [specScore]

/-! ### Formatting helpers -/

theorem foldl_append_str : ∀ (l : List String) (a b : String),
    l.foldl (· ++ ·) (a ++ b) = a ++ l.foldl (· ++ ·) b
  | [], _, _ => rfl
  | s :: l, a, b => by
      rw [List.foldl_cons, List.foldl_cons, String.append_assoc,
        foldl_append_str l a (b ++ s)]

theorem join_cons_str (s : String) (l : List String) :
    String.join (s :: l) = s ++ String.join l := by
  rw [String.join, String.join, List.foldl_cons, String.empty_append,
    show (s : String) = s ++ "" from (String.append_empty s).symm]
  rw [foldl_append_str]
  rw [String.append_empty]

theorem formatQAAux_eq : ∀ (pairs : List (String × String)) (i : ℕ) (acc : String),
    formatQAAux i pairs acc =
      acc ++ String.join ((pairs.enumFrom i).map (fun p => qaBlock p.1 p.2.1 p.2.2))
  | [], i, acc => by
      rw [formatQAAux, List.enumFrom_nil, List.map_nil]
      rw [show String.join [] = "" from rfl, String.append_empty]
  | (q, a) :: rest, i, acc => by
      rw [formatQAAux, formatQAAux_eq rest (i + 1) _, List.enumFrom_cons, List.map_cons,
        join_cons_str, String.append_assoc]

/-! ### The decomposition loop records prompts independently of answers -/

theorem ragLoop_go (retriever : String → List α) (llm : DecompPromptInput α → String) :
    ∀ (subs : List String) (acc : List String × List (DecompPromptInput α)),
      (subs.foldl
        (fun acc sq =>
          let p : DecompPromptInput α := ⟨retriever sq, sq, none⟩
          (acc.1 ++ [llm p], acc.2 ++ [p])) acc).2 =
        acc.2 ++ subs.map (fun sq => ⟨retriever sq, sq, none⟩)
  | [], acc => by simp
  | sq :: subs, acc => by
      rw [List.foldl_cons, ragLoop_go retriever llm subs _, List.map_cons]
      simp

theorem ragLoop_prompts (retriever : String → List α) (llm : DecompPromptInput α → String)
    (subs : List String) :
    (ragLoop retriever llm subs).2 = subs.map (fun sq => ⟨retriever sq, sq, none⟩) := by
  rw [ragLoop, ragLoop_go]
  rw [List.nil_append]

theorem ragLoop_go_results (retriever : String → List α) (llm : DecompPromptInput α → String) :
    ∀ (subs : List String) (acc : List String × List (DecompPromptInput α)),
      (subs.foldl
        (fun acc sq =>
          let p : DecompPromptInput α := ⟨retriever sq, sq, none⟩
          (acc.1 ++ [llm p], acc.2 ++ [p])) acc).1 =
        acc.1 ++ subs.map (fun sq => llm ⟨retriever sq, sq, none⟩)
  | [], acc => by simp
  | sq :: subs, acc => by
      rw [List.foldl_cons, ragLoop_go_results retriever llm subs _, List.map_cons]
      simp

theorem ragLoop_results (retriever : String → List α) (llm : DecompPromptInput α → String)
    (subs : List String) :
    (ragLoop retriever llm subs).1 = subs.map (fun sq => llm ⟨retriever sq, sq, none⟩) := by
  rw [ragLoop, ragLoop_go_results]
  rw [List.nil_append]

theorem zip_take_min : ∀ (qs as : List String),
    (qs.take (min qs.length as.length)).zip (as.take (min qs.length as.length)) = qs.zip as
  | [], _ => by simp
  | _ :: _, [] => by simp
  | q :: qs, a :: as => by
      simp only [List.length_cons, Nat.succ_min_succ, List.take_succ_cons, List.zip_cons_cons]
      rw [zip_take_min qs as]

/-! ### Claim theorems -/

/-- C1: for every non-empty list of ranked document lists and every k > 0,
`reciprocal_rank_fusion` succeeds and returns the fused entries; their
serialization keys are pairwise distinct (each distinct document,
identified by its canonical serialization, appears exactly once); a key
appears iff some input list holds a document with that serialization
(documents absent from a list contribute nothing); and every entry carries
score `specScore`, the sum over all its occurrences of `1/(rank + k)` with
`rank` the 0-based position of the occurrence. -/
theorem rrf_each_document_once_with_rrf_score {α : Type}
    (dumps : α → String) (loads : String → α)
    (results : List (List α)) (k : ℤ) (hres : results ≠ []) (hk : 0 < k) :
    reciprocal_rank_fusion dumps loads results k =
      .ok ((reranked_results dumps k results).map (fun p => (loads p.1, p.2))) ∧
    ((reranked_results dumps k results).map Prod.fst).Nodup ∧
    (∀ key : String, key ∈ (reranked_results dumps k results).map Prod.fst ↔
      ∃ docs, docs ∈ results ∧ ∃ d, d ∈ docs ∧ dumps d = key) ∧
    (∀ p ∈ reranked_results dumps k results, p.2 = specScore dumps k p.1 results) := by
  have hperm : List.Perm ((reranked_results dumps k results).map Prod.fst)
      ((fused_scores dumps k results).map Prod.fst) :=
    (List.mergeSort_perm (fused_scores dumps k results) pairLE).map Prod.fst
  refine ⟨rrf_of_ne_nil dumps loads results k hres, ?_, ?_, ?_⟩
  · exact hperm.nodup_iff.mpr (nodup_keys_fused_scores dumps k results)
  · intro key
    rw [hperm.mem_iff]
    exact mem_keys_fused_scores dumps k results key
  · intro p hp
    have hp' : p ∈ fused_scores dumps k results := List.mem_mergeSort.mp hp
    rw [snd_eq_scoreOf_of_nodup _ (nodup_keys_fused_scores dumps k results) p hp',
      scoreOf_fused_scores]

/-- Witness for C1 at the spec's example `[[A,B],[B,A]]` with `k = 1`:
the hypotheses hold, the theorem applies, and both documents score
`1/(0+1) + 1/(1+1) = 3/2`. -/
theorem rrf_each_document_once_with_rrf_score_witness :
    (([["A", "B"], ["B", "A"]] : List (List String)) ≠ []) ∧ ((0 : ℤ) < 1) ∧
    ((reranked_results (fun s : String => s) 1 [["A", "B"], ["B", "A"]]).map Prod.fst).Nodup ∧
    reciprocal_rank_fusion (fun s : String => s) (fun s => s) [["A", "B"], ["B", "A"]] 1 =
      .ok [("A", 3/2), ("B", 3/2)] :=
  ⟨by decide, by decide,
   (rrf_each_document_once_with_rrf_score (fun s => s) (fun s => s)
      [["A", "B"], ["B", "A"]] 1 (by decide) (by decide)).2.1,
   by
    have h1 : fused_scores (fun s : String => s) 1 [["A", "B"], ["B", "A"]] =
        [("A", (3 : ℚ)/2), ("B", 3/2)] := by
      norm_num [fused_scores, processAll, processDocs, updateScore]
    have h2 : reranked_results (fun s : String => s) 1 [["A", "B"], ["B", "A"]] =
        [("A", (3 : ℚ)/2), ("B", 3/2)] := by
      rw [reranked_results, h1]
      exact List.mergeSort_of_sorted (by norm_num [List.pairwise_cons, pairLE])
    rw [rrf_of_ne_nil (fun s : String => s) (fun s => s) [["A", "B"], ["B", "A"]] 1
      (by decide), h2]
    rfl⟩

/-- C2: the fused output is the fused-scores dict sorted by score
descending; ties keep the order in which their keys were first encountered
scanning the input lists (the dict key order is exactly `newKeys [] (scan
sequence)`, and sorting is stable on it); and the function is a pure
function of its input, so repeated calls agree definitionally. -/
theorem rrf_sorted_desc_stable_deterministic {α : Type}
    (dumps : α → String) (loads : String → α) (results : List (List α)) (k : ℤ)
    (hres : results ≠ []) :
    reciprocal_rank_fusion dumps loads results k =
      .ok ((reranked_results dumps k results).map (fun p => (loads p.1, p.2))) ∧
    (reranked_results dumps k results).Pairwise (fun a b => b.2 ≤ a.2) ∧
    (fused_scores dumps k results).map Prod.fst = newKeys [] (results.flatten.map dumps) ∧
    (∀ a b : String × ℚ, a.2 = b.2 → List.Sublist [a, b] (fused_scores dumps k results) →
      List.Sublist [a, b] (reranked_results dumps k results)) ∧
    reciprocal_rank_fusion dumps loads results k =
      reciprocal_rank_fusion dumps loads results k := by
  refine ⟨rrf_of_ne_nil dumps loads results k hres, ?_, keys_fused_scores dumps k results,
    ?_, rfl⟩
  · exact (List.sorted_mergeSort pairLE_trans pairLE_total
      (fused_scores dumps k results)).imp
      (fun h => by simpa [pairLE, decide_eq_true_eq] using h)
  · intro a b hab hsub
    refine List.sublist_mergeSort pairLE_trans pairLE_total ?_ hsub
    refine List.pairwise_cons.mpr ⟨?_, List.pairwise_singleton _ _⟩
    intro x hx
    rw [List.mem_singleton] at hx
    subst hx
    simp [pairLE, hab]

/-- Witness for C2 at `[[A,B],[B,A]]`, `k = 1`: the sortedness conclusion
of the theorem holds there. -/
theorem rrf_sorted_desc_stable_deterministic_witness :
    (([["A", "B"], ["B", "A"]] : List (List String)) ≠ []) ∧
    (reranked_results (fun s : String => s) 1 [["A", "B"], ["B", "A"]]).Pairwise
      (fun a b => b.2 ≤ a.2) :=
  ⟨by decide,
   (rrf_sorted_desc_stable_deterministic (fun s => s) (fun s => s)
      [["A", "B"], ["B", "A"]] 1 (by decide)).2.1⟩

/-- C3: fusing an empty collection of lists raises
`ValueError("Results list cannot be empty")` (the `InvalidInput` failure),
while fusing a non-empty collection whose individual lists are all empty
returns the empty result without error. -/
theorem rrf_empty_collection_errors_all_empty_lists_ok {α : Type}
    (dumps : α → String) (loads : String → α) (k : ℤ) :
    reciprocal_rank_fusion dumps loads ([] : List (List α)) k =
      .error "Results list cannot be empty" ∧
    reciprocal_rank_fusion dumps loads ([[], []] : List (List α)) k = .ok [] := by
  constructor
  · rfl
  · have h0 : fused_scores dumps k ([[], []] : List (List α)) = [] := rfl
    have h : reranked_results dumps k ([[], []] : List (List α)) = [] := by
      rw [reranked_results, h0, List.mergeSort_nil]
    rw [rrf_of_ne_nil dumps loads ([[], []] : List (List α)) k (by simp), h]
    rfl

/-- C4: for fixed k > 0 the fused score accumulated for a serialization
key is monotone: appending one more ranked list (e.g. one containing the
document again) never decreases the key's accumulated score, and moving
a document's occurrence to a better (smaller) 0-based rank within a list
— the surrounding documents keeping their relative order — never
decreases its score. -/
theorem rrf_score_monotone {α : Type} (dumps : α → String) (k : ℤ) (hk : 0 < k)
    (results : List (List α)) (docs : List α) (key : String)
    (pre suf : List (List α)) (bs : List α) (d : α) (hd : dumps d = key)
    (p q : ℕ) (hqp : q ≤ p) (hp : p ≤ bs.length) :
    scoreOf (fused_scores dumps k results) key ≤
      scoreOf (fused_scores dumps k (results ++ [docs])) key ∧
    scoreOf (fused_scores dumps k (pre ++ insertAt d p bs :: suf)) key ≤
      scoreOf (fused_scores dumps k (pre ++ insertAt d q bs :: suf)) key := by
  subst hd
  constructor
  · rw [scoreOf_fused_scores, scoreOf_fused_scores, specScore_append]
    have h0 : 0 ≤ specScore dumps k (dumps d) [docs] := by
      simp only [specScore, List.map_cons, List.map_nil, List.sum_cons, List.sum_nil,
        add_zero, occScore]
      exact occScoreFrom_nonneg dumps k (dumps d) hk 0 docs
    linarith
  · rw [scoreOf_fused_scores, scoreOf_fused_scores, specScore_middle, specScore_middle]
    have hmono : occScore dumps k (dumps d) (insertAt d p bs) ≤
        occScore dumps k (dumps d) (insertAt d q bs) := by
      simp only [occScore]
      exact occScoreFrom_insertAt_le dumps k d hk bs q p hqp hp 0
    linarith

/-- Witness for C4: duplicating the only list `["A"]` and moving `"A"`
from rank 1 to rank 0 in the list `["B","A"]`. -/
theorem rrf_score_monotone_witness :
    ((0 : ℤ) < 1 ∧ (fun s : String => s) "A" = "A" ∧ (0 : ℕ) ≤ 1 ∧
      1 ≤ (["B"] : List String).length) ∧
    (scoreOf (fused_scores (fun s : String => s) 1 [["A"]]) "A" ≤
      scoreOf (fused_scores (fun s : String => s) 1 ([["A"]] ++ [["A"]])) "A" ∧
    scoreOf (fused_scores (fun s : String => s) 1 ([] ++ insertAt "A" 1 ["B"] :: [])) "A" ≤
      scoreOf (fused_scores (fun s : String => s) 1 ([] ++ insertAt "A" 0 ["B"] :: [])) "A") :=
  ⟨⟨by decide, rfl, by decide, by decide⟩,
   rrf_score_monotone (fun s => s) 1 (by decide) [["A"]] ["A"] "A" [] [] ["B"] "A" rfl
     1 0 (by decide) (by decide)⟩

/-- C5: when every per-query retrieved list is empty, the fusion pipeline's
`run` prints the empty-retrieval error (the wrapped
`"No documents retrieved for the given question."` ValueError raised in
`retrieve_documents`) and never reaches the final-synthesis LanguageModel
call. -/
theorem fusion_run_empty_retrieval_aborts {α : Type}
    (dumps : α → String) (loads : String → α)
    (generate_queries : String → List String) (retriever : String → List α)
    (k : ℤ) (llm : String → String → String) (content : α → String) (stdin : String)
    (hq : stdin ≠ "") (hqs : generate_queries stdin ≠ [])
    (hempty : ∀ q ∈ generate_queries stdin, retriever q = []) :
    FusionRetrieval.run dumps loads generate_queries retriever k llm content stdin =
      ("Error: Failed to retrieve documents: No documents retrieved for the given question.",
        false) := by
  have hres : (generate_queries stdin).map retriever ≠ [] := by
    intro hmap
    exact hqs (by simpa using hmap)
  have hall : ∀ l ∈ (generate_queries stdin).map retriever, l = [] := by
    intro l hl
    rcases List.mem_map.mp hl with ⟨x, hx, rfl⟩
    exact hempty x hx
  have hfused : fused_scores dumps k ((generate_queries stdin).map retriever) = [] :=
    processAll_all_empty dumps k _ [] hall
  have hrer : reranked_results dumps k ((generate_queries stdin).map retriever) = [] := by
    rw [reranked_results, hfused, List.mergeSort_nil]
  have hrrf := rrf_of_ne_nil dumps loads ((generate_queries stdin).map retriever) k hres
  rw [hrer, List.map_nil] at hrrf
  have hret : retrieve_documents dumps loads generate_queries retriever k stdin =
      .error "Failed to retrieve documents: No documents retrieved for the given question." := by
    rw [retrieve_documents, if_neg hq, hrrf]
  rw [FusionRetrieval.run, hret]
  rfl

/-- Witness for C5 with one expanded query whose retrieval is empty. -/
theorem fusion_run_empty_retrieval_aborts_witness :
    (("ask" : String) ≠ "" ∧ ((fun _ : String => ["q1"]) "ask" ≠ []) ∧
      (∀ q ∈ (fun _ : String => ["q1"]) "ask", (fun _ : String => ([] : List String)) q = [])) ∧
    FusionRetrieval.run (fun s : String => s) (fun s => s) (fun _ => ["q1"]) (fun _ => [])
      60 (fun _ _ => "answer") (fun s => s) "ask" =
      ("Error: Failed to retrieve documents: No documents retrieved for the given question.",
        false) :=
  ⟨⟨by decide, by decide, fun q _ => rfl⟩,
   fusion_run_empty_retrieval_aborts (fun s : String => s) (fun s => s) (fun _ => ["q1"])
     (fun _ => []) 60 (fun _ _ => "answer") (fun s => s) "ask" (by decide) (by decide)
     (fun q _ => rfl)⟩

/-- C6: for equal-length question and answer lists, the synthesis context
built by `format_qa_pairs` is the concatenation, in emission order, of the
1-indexed blocks "Question i: qi\nAnswer i: ai\n\n", stripped of
surrounding (in particular trailing) whitespace. -/
theorem format_qa_pairs_is_indexed_blocks (questions answers : List String)
    (h : questions.length = answers.length) :
    format_qa_pairs questions answers =
      pyStrip (String.join (((questions.zip answers).enumFrom 1).map
        (fun p => qaBlock p.1 p.2.1 p.2.2))) := by
  rw [format_qa_pairs, formatQAAux_eq, String.empty_append]

/-- Witness for C6 on three pairs: the blocks appear in order
Question 1, Question 2, Question 3, each immediately followed by its
answer, and the trailing blank lines are stripped. -/
theorem format_qa_pairs_is_indexed_blocks_witness :
    (["q1", "q2", "q3"] : List String).length = (["a1", "a2", "a3"] : List String).length ∧
    format_qa_pairs ["q1", "q2", "q3"] ["a1", "a2", "a3"] =
      pyStrip (String.join (((["q1", "q2", "q3"].zip ["a1", "a2", "a3"]).enumFrom 1).map
        (fun p => qaBlock p.1 p.2.1 p.2.2))) ∧
    format_qa_pairs ["q1", "q2", "q3"] ["a1", "a2", "a3"] =
      "Question 1: q1\nAnswer 1: a1\n\nQuestion 2: q2\nAnswer 2: a2\n\nQuestion 3: q3\nAnswer 3: a3" :=
  ⟨rfl,
   format_qa_pairs_is_indexed_blocks ["q1", "q2", "q3"] ["a1", "a2", "a3"] rfl,
   by decide⟩

/-- C7: the per-sub-question prompts of the decomposition loop are a
function of the sub-questions and the retriever alone: two runs with any
two LanguageModel oracles (in particular ones differing only in the
answers produced for earlier sub-questions) build identical prompt
sequences; each prompt leaves the template's `q_a_pairs` slot unfilled;
and each sub-answer depends only on its own sub-question's prompt. -/
theorem decomposition_prompts_independent_of_prior_answers {α : Type}
    (retriever : String → List α) (llm1 llm2 : DecompPromptInput α → String)
    (subs : List String) :
    (ragLoop retriever llm1 subs).2 = (ragLoop retriever llm2 subs).2 ∧
    (∀ pr ∈ (ragLoop retriever llm1 subs).2, pr.q_a_pairs = none) ∧
    (ragLoop retriever llm1 subs).1 = subs.map (fun sq => llm1 ⟨retriever sq, sq, none⟩) := by
  refine ⟨?_, ?_, ragLoop_results retriever llm1 subs⟩
  · rw [ragLoop_prompts, ragLoop_prompts]
  · intro pr hpr
    rw [ragLoop_prompts] at hpr
    rcases List.mem_map.mp hpr with ⟨sq, _, rfl⟩
    rfl

/-- C8: `call_method` selects the multi-query, fusion, or decomposition
pipeline exactly when the method name matches the respective strategy name
case-insensitively, and prints the invalid-method message (invoking no
pipeline) exactly when none of the three match. -/
theorem call_method_case_insensitive_dispatch (name : String) :
    (call_method name = .multiQueryRun ↔ ciEq name "multi_query" = true) ∧
    (call_method name = .fusionRun ↔ ciEq name "fusion" = true) ∧
    (call_method name = .decompositionRun ↔ ciEq name "decomposition" = true) ∧
    (call_method name = .invalidMessage ↔
      (ciEq name "multi_query" = false ∧ ciEq name "fusion" = false ∧
        ciEq name "decomposition" = false)) := by
  have h1 : pyLower "multi_query" = "multi_query" := by decide
  have h2 : pyLower "fusion" = "fusion" := by decide
  have h3 : pyLower "decomposition" = "decomposition" := by decide
  simp only [call_method, ciEq, h1, h2, h3, beq_iff_eq, beq_eq_false_iff_ne]
  split_ifs with hA hB hC <;> simp_all

/-- C9 (code bug): `main.py` reads the query from stdin and then calls
`rag_method_caller.call_method(method_name, query)` with two positional
arguments, but `RAGMethodCaller.call_method` accepts only `method_name`
(and the strategies' `run()` methods accept no question argument at all,
reading the question from `input()` themselves), so an explicitly passed
question can never reach a pipeline: the dispatch raises TypeError. -/
theorem main_dispatch_type_error :
    main_dispatch "multi_query" "What is retrieval-augmented generation?" =
      .error "TypeError: call_method() takes 2 positional arguments but 3 were given" := rfl

/-- C10: on question and answer lists of unequal length,
`format_qa_pairs` silently truncates both to the length of the shorter
one (Python `zip` semantics) and returns normally — the surplus entries
contribute no block to the formatted context. -/
theorem format_qa_pairs_truncates_to_shorter (questions answers : List String) :
    format_qa_pairs questions answers =
      format_qa_pairs (questions.take (min questions.length answers.length))
        (answers.take (min questions.length answers.length)) := by
  rw [format_qa_pairs, format_qa_pairs, zip_take_min]

end RagCore
